import Mathlib

/-!
Shallow embedding of the coursework repository (booking app, e-commerce
tracker, text analyzer) together with proofs about the claims of its
specification.

Conventions used throughout:
* Python strings are Lean `String`s; string algorithms are written over
  `String.data : List Char` so that every definition reduces in the kernel.
* File I/O is modelled explicitly: the appointment CSV file is a value of
  type `Option (List Char)` (`none` means the file does not exist) and the
  CSV (de)serialisation of the Python `csv` module (excel dialect,
  QUOTE_MINIMAL) is embedded character by character.  The CRUD helpers are
  additionally given at the level of the decoded row list, mirroring the
  composition `read -> transform -> overwrite` of the source.
* Python `float` prices are modelled as exact rationals.
* Fallible Python code (division by zero, `int(...)`/`fromisoformat`
  parsing inside `try`) is modelled with `Option`.
-/

/-! ## Python string primitives -/

/-- Lowercase a string character by character, modelling `str.lower()`
(restricted to the `Char.toLower` table). -/
def pyLower (s : String) : String := ⟨s.data.map Char.toLower⟩

/-- Uppercase a string character by character, modelling `str.upper()`. -/
def pyUpper (s : String) : String := ⟨s.data.map Char.toUpper⟩

/-- Strip of leading whitespace over a character list. -/
def stripLeading (l : List Char) : List Char := l.dropWhile Char.isWhitespace

/-- Model of `str.strip()`: drop whitespace from both ends. -/
def pyStrip (s : String) : String :=
  ⟨((stripLeading s.data).reverse.dropWhile Char.isWhitespace).reverse⟩

/-- Helper for `str.split()` with no separator: accumulate the current word
(in reverse) and emit it at whitespace boundaries; empty words are dropped. -/
def pySplitAux : List Char → List Char → List (List Char)
  | acc, [] => if acc = [] then [] else [acc.reverse]
  | acc, c :: rest =>
    if c.isWhitespace then
      if acc = [] then pySplitAux [] rest else acc.reverse :: pySplitAux [] rest
    else pySplitAux (c :: acc) rest

/-- Model of `str.split()` (split on whitespace runs, dropping empties). -/
def pySplit (s : String) : List String := (pySplitAux [] s.data).map fun w => ⟨w⟩

/-- Helper for `str.title()`: uppercase a letter that follows a non-letter,
lowercase a letter that follows a letter (cased = ASCII-style `isAlpha`). -/
def pyTitleAux : Bool → List Char → List Char
  | _, [] => []
  | prevCased, c :: rest =>
    if c.isAlpha then
      (if prevCased then c.toLower else c.toUpper) :: pyTitleAux true rest
    else c :: pyTitleAux false rest

/-- Model of `str.title()`. -/
def pyTitle (s : String) : String := ⟨pyTitleAux false s.data⟩

/-- Model of the Python substring test `needle in hay` on code points. -/
def strContains (needle hay : String) : Bool := decide (needle.data <:+: hay.data)

/-- Parse a nonempty all-digit character list as a natural number. -/
def parseDigits (l : List Char) : Option Nat :=
  if l ≠ [] ∧ l.all Char.isDigit then
    some (l.foldl (fun a c => a * 10 + (c.toNat - 48)) 0)
  else none

/-- Model of `int(s)` for a decimal literal: an optional sign followed by at
least one digit.  (The whitespace/underscore tolerance of Python `int` is
not modelled; none of the claims depends on it.) -/
def parseIntStr (s : String) : Option Int :=
  match s.data with
  | '-' :: ds => (parseDigits ds).map fun n => -(n : Int)
  | '+' :: ds => (parseDigits ds).map fun n => (n : Int)
  | ds => (parseDigits ds).map fun n => (n : Int)

/-- Split a character list at every occurrence of a separator character,
keeping empty chunks, as Python `str.split(sep)` does. -/
def splitOnChar (sep : Char) : List Char → List Char → List (List Char)
  | acc, [] => [acc.reverse]
  | acc, c :: rest =>
    if c = sep then acc.reverse :: splitOnChar sep [] rest
    else splitOnChar sep (c :: acc) rest

/-- Embedding of the time-parsing snippet of `find_conflict`:
`h, m = map(int, t.split(":")); total = h*60 + m`, with any failure
(`ValueError` from `int`, wrong number of parts) collapsed to `none`. -/
def parseTimeMinutes (t : String) : Option Int :=
  match splitOnChar ':' [] t.data with
  | [h, m] =>
    match parseIntStr ⟨h⟩, parseIntStr ⟨m⟩ with
    | some hh, some mm => some (hh * 60 + mm)
    | _, _ => none
  | _ => none

/-! ## Dates (`datetime.date`, `datetime.fromisoformat`) -/

/-- A Python `datetime.date`: a valid Gregorian calendar day. -/
structure PyDate where
  year : Nat
  month : Nat
  day : Nat
deriving DecidableEq, Repr

/-- Strict comparison of dates, i.e. lexicographic on (year, month, day). -/
def dateLt (a b : PyDate) : Prop :=
  a.year < b.year ∨ (a.year = b.year ∧
    (a.month < b.month ∨ (a.month = b.month ∧ a.day < b.day)))

instance (a b : PyDate) : Decidable (dateLt a b) :=
  inferInstanceAs (Decidable (_ ∨ _))

/-- Non-strict comparison of dates. -/
def dateLe (a b : PyDate) : Prop := dateLt a b ∨ a = b

instance (a b : PyDate) : Decidable (dateLe a b) :=
  inferInstanceAs (Decidable (_ ∨ _))

/-- Gregorian leap-year test. -/
def isLeap (y : Nat) : Bool := y % 4 = 0 ∧ (y % 100 ≠ 0 ∨ y % 400 = 0)

/-- Number of days of a month (month assumed in 1..12). -/
def daysInMonth (y m : Nat) : Nat :=
  if m = 2 then (if isLeap y then 29 else 28)
  else if m = 4 ∨ m = 6 ∨ m = 9 ∨ m = 11 then 30
  else 31

/-- Numeric value of a digit character. -/
def digitVal (c : Char) : Nat := c.toNat - 48

/-- Model of `datetime.fromisoformat(s).date()` as used on the `date`
column: the canonical `YYYY-MM-DD` layout with calendar validation.
(Python also accepts ISO strings with a time part; the app only ever
stores `date.isoformat()` values, which are canonical.) -/
def parseIsoDate (s : String) : Option PyDate :=
  match s.data with
  | [y1, y2, y3, y4, '-', m1, m2, '-', d1, d2] =>
    if [y1, y2, y3, y4, m1, m2, d1, d2].all Char.isDigit then
      let y := ((digitVal y1 * 10 + digitVal y2) * 10 + digitVal y3) * 10 + digitVal y4
      let m := digitVal m1 * 10 + digitVal m2
      let d := digitVal d1 * 10 + digitVal d2
      if 1 ≤ y ∧ 1 ≤ m ∧ m ≤ 12 ∧ 1 ≤ d ∧ d ≤ daysInMonth y m then
        some ⟨y, m, d⟩
      else none
    else none
  | _ => none

/-! ## Booking app (`Task 5/streamlit_service_app.py`): rows and CRUD

The CSV file always carries the seven columns written by the app, so a
decoded appointment is a record of seven strings.  The helpers below are
the row-list level of the Python functions: each Python helper reads the
file, transforms the row list and (sometimes) overwrites the file; the
file-level encoding is treated separately in the CSV section. -/

/-- One appointment row (one CSV line of `appointments.csv`). -/
structure Row where
  timestamp : String
  name : String
  contact : String
  date : String
  time : String
  issue_type : String
  notes : String
deriving DecidableEq, Repr

/-- Model of `append_appointment`: the submit handler appends one row at
the end of the file. -/
def append_appointment (rows : List Row) (row : Row) : List Row := rows ++ [row]

/-- Model of `delete_appointment` on the decoded state: keep the rows whose
timestamp differs, and report whether anything was removed; when nothing
matched the function returns before calling `overwrite_appointments`, so
the stored state is the untouched original list. -/
def delete_appointment (rows : List Row) (timestamp : String) : List Row × Bool :=
  let new_rows := rows.filter fun r => r.timestamp != timestamp
  if new_rows.length = rows.length then (rows, false) else (new_rows, true)

/-- Model of `update_appointment` on the decoded state: replace the first
row carrying the timestamp (the Python loop breaks at the first hit) and
report whether a replacement happened; on `false` no overwrite is done. -/
def update_appointment (rows : List Row) (timestamp : String) (new_row : Row) :
    List Row × Bool :=
  match rows with
  | [] => ([], false)
  | r :: rest =>
    if r.timestamp = timestamp then (new_row :: rest, true)
    else
      let p := update_appointment rest timestamp new_row
      (r :: p.1, p.2)

/-- Truthiness of the `ignore_ts` argument (`if ignore_ts and ...`):
`None` and the empty string are falsy. -/
def ignoreTruthy (ignore_ts : Option String) : Bool :=
  match ignore_ts with
  | none => false
  | some s => s != ""

/-- Whether the loop of `find_conflict` skips row `r` because of
`ignore_ts`. -/
def ignoredBy (ignore_ts : Option String) (r : Row) : Bool :=
  ignoreTruthy ignore_ts && (some r.timestamp == ignore_ts)

/-- One iteration of the `find_conflict` loop body on row `r` (after the
`ignore_ts` test): date must match, an empty stored time is skipped, and
then either both times parse and are compared in minutes (within the
buffer when `buffer_minutes` is truthy, exactly otherwise), or the code
falls back to exact string comparison of the time fields. -/
def rowConflicts (appt_date appt_time : String) (buffer_minutes : Int) (r : Row) : Bool :=
  if r.date != appt_date then false
  else if r.time == "" then false
  else
    match parseTimeMinutes appt_time with
    | some req_total =>
      match parseTimeMinutes r.time with
      | some other_total =>
        if buffer_minutes ≠ 0 ∧ ((other_total - req_total).natAbs : Int) ≤ buffer_minutes then
          true
        else if other_total = req_total ∧ buffer_minutes = 0 then true
        else false
      | none => r.time == appt_time
    | none => r.time == appt_time

/-- Model of `find_conflict` on the decoded state: scan the stored rows and
report the first conflicting one (the Python `return True` inside the loop
is the existential `List.any`). -/
def find_conflict (rows : List Row) (appt_date appt_time : String)
    (ignore_ts : Option String) (buffer_minutes : Int) : Bool :=
  rows.any fun r =>
    if ignoredBy ignore_ts r then false
    else rowConflicts appt_date appt_time buffer_minutes r

/-! ## Booking app: filtering and sorting -/

/-- Search haystack of `filter_appointments`: lowercased name, contact and
notes joined by single spaces. -/
def searchHay (r : Row) : String :=
  pyLower r.name ++ " " ++ pyLower r.contact ++ " " ++ pyLower r.notes

/-- The filter predicate of the `filter_appointments` loop, taking the
already stripped-and-lowercased query `q`: unparseable dates are dropped
(`except: continue`), the date must lie in the inclusive range, the issue
type must be member of a non-empty `types` list, and a non-blank query
must occur in the search haystack. -/
def rowPasses (date_from date_to : PyDate) (types : List String) (q : String)
    (r : Row) : Bool :=
  match parseIsoDate r.date with
  | none => false
  | some rd =>
    if dateLt rd date_from ∨ dateLt date_to rd then false
    else if types ≠ [] ∧ r.issue_type ∉ types then false
    else if q ≠ "" ∧ strContains q (searchHay r) = false then false
    else true

/-- Sort relation of `out.sort(key=lambda x: (x['date'], x['time']))`:
compare the `(date, time)` string pairs lexicographically. -/
def sortKey_le (a b : Row) : Prop :=
  a.date < b.date ∨ (a.date = b.date ∧ a.time ≤ b.time)

instance (a b : Row) : Decidable (sortKey_le a b) :=
  inferInstanceAs (Decidable (_ ∨ _))

instance : IsTotal Row sortKey_le where
  total a b := by
    rcases lt_trichotomy a.date b.date with h | h | h
    · exact Or.inl (Or.inl h)
    · rcases le_total a.time b.time with ht | ht
      · exact Or.inl (Or.inr ⟨h, ht⟩)
      · exact Or.inr (Or.inr ⟨h.symm, ht⟩)
    · exact Or.inr (Or.inl h)

instance : IsTrans Row sortKey_le where
  trans a b c hab hbc := by
    rcases hab with h1 | ⟨h1, h1'⟩
    · rcases hbc with h2 | ⟨h2, _⟩
      · exact Or.inl (h1.trans h2)
      · exact Or.inl (h2 ▸ h1)
    · rcases hbc with h2 | ⟨h2, h2'⟩
      · exact Or.inl (h1 ▸ h2)
      · exact Or.inr ⟨h1.trans h2, h1'.trans h2'⟩

/-- Model of `filter_appointments`: normalise the query
(`(query or "").strip().lower()`), keep the rows passing the filter (the
loop appends in order, i.e. `List.filter`), then sort by the
`(date, time)` pair.  Python's stable `list.sort` is modelled by the
stable `List.insertionSort`. -/
def filter_appointments (rows : List Row) (date_from date_to : PyDate)
    (types : List String) (query : String) : List Row :=
  List.insertionSort sortKey_le
    (rows.filter (rowPasses date_from date_to types (pyLower (pyStrip query))))

/-- The no-double-booking invariant of the stored state: the
`(date, time)` string pairs of the rows are pairwise distinct. -/
def distinctSlots (rows : List Row) : Prop :=
  (rows.map fun r => (r.date, r.time)).Nodup

instance (rows : List Row) : Decidable (distinctSlots rows) :=
  inferInstanceAs (Decidable ((rows.map fun r : Row => (r.date, r.time)).Nodup))

/-! ## E-commerce tracker (`Task 6/ecommerce_tracker.py`)

Products are records of name, category and price; Python `float` prices
are modelled as exact rationals. -/

/-- One product dictionary of the tracker. -/
structure Product where
  name : String
  category : String
  price : ℚ
deriving DecidableEq, Repr

/-- Model of `average_price`: `sum(p["price"] for p in products) /
len(products)`; the division raises `ZeroDivisionError` on an empty list,
modelled as `none`. -/
def average_price (products : List Product) : Option ℚ :=
  if products.length = 0 then none
  else some ((products.map Product.price).sum / (products.length : ℚ))

/-- Model of `product_names_tuple`. -/
def product_names_tuple (products : List Product) : List String :=
  products.map Product.name

/-- Model of `unique_categories` (a Python `set`; the model keeps the
first occurrence of every category). -/
def unique_categories (products : List Product) : List String :=
  (products.map Product.category).dedup

/-- Loop of `find_products_by_keyword` over the product list, with the
lowercased keyword precomputed: append every product whose lowercased name
contains it. -/
def findByKeywordAux (kw_low : String) : List Product → List Product
  | [] => []
  | p :: rest =>
    if strContains kw_low (pyLower p.name) then p :: findByKeywordAux kw_low rest
    else findByKeywordAux kw_low rest

/-- Model of `find_products_by_keyword`. -/
def find_products_by_keyword (products : List Product) (kw : String) : List Product :=
  findByKeywordAux (pyLower kw) products

/-- Model of `add_to_cart`: `cart.append(product)`. -/
def add_to_cart (cart : List Product) (product : Product) : List Product :=
  cart ++ [product]

/-- Model of `remove_from_cart`: pop the first product whose name equals
`product_name` and return (the loop returns right after the pop). -/
def remove_from_cart : List Product → String → List Product
  | [], _ => []
  | p :: rest, product_name =>
    if p.name = product_name then rest
    else p :: remove_from_cart rest product_name

/-- Model of `summary`: formats the average price, the names and the
categories.  It calls `average_price` unconditionally, so the
`ZeroDivisionError` of the empty list propagates (`none`); the precise
`str.format` rendering is abstracted by `toString`. -/
def summary (products : List Product) : Option String :=
  (average_price products).map fun avg =>
    "Products: " ++ toString products.length ++ " | Average price: $" ++ toString avg ++
      "\n" ++ "Names (tuple): " ++ toString (product_names_tuple products) ++
      "\n" ++ "Categories (set): " ++ toString (unique_categories products)

/-! ## Text analyzer (`Task_3.py`) -/

/-- The dictionary returned by `analyze_text`. -/
structure TextAnalysis where
  original : String
  processed : String
  length : Nat
  count_char : Nat
  word_count : Nat
  title : String
  lower : String
  upper : String
  is_title : Bool
  is_lower : Bool
  is_upper : Bool
deriving DecidableEq, Repr

/-- Model of `analyze_text`: optional strip, then lengths, the
whitespace-separated word count, and the three case transforms compared
with the processed string by equality. -/
def analyze_text (s : String) (strip_spaces : Bool) : TextAnalysis :=
  let s_proc := if strip_spaces then pyStrip s else s
  { original := s
    processed := s_proc
    length := s_proc.data.length
    count_char := s_proc.data.length
    word_count := (pySplit s_proc).length
    title := pyTitle s_proc
    lower := pyLower s_proc
    upper := pyUpper s_proc
    is_title := s_proc == pyTitle s_proc
    is_lower := s_proc == pyLower s_proc
    is_upper := s_proc == pyUpper s_proc }

/-! ## CSV encoding and decoding (Python `csv` module, excel dialect)

`overwrite_appointments` writes with `csv.DictWriter` and
`read_appointments` reads with `csv.DictReader`, both in the default excel
dialect: delimiter `,`, quote char `"`, QUOTE_MINIMAL quoting with doubled
quotes, line terminator CR LF.  The writer is embedded directly; the
reader is the character automaton of the `_csv` tokenizer (non-strict
mode, no escape char), with the CR/LF grouping done by an `afterCR`
state. -/

/-- Characters forcing QUOTE_MINIMAL quoting: delimiter, quote char, or a
line-terminator character. -/
def isCsvSpecial (c : Char) : Bool := c = ',' ∨ c = '"' ∨ c = '\r' ∨ c = '\n'

/-- Double every quote character, the escaping used inside quoted fields. -/
def doubleQuotes : List Char → List Char
  | [] => []
  | c :: rest => if c = '"' then '"' :: '"' :: doubleQuotes rest else c :: doubleQuotes rest

/-- Encode one field: quote it (doubling inner quotes) exactly when it
contains a special character.  (The writer's extra rule for a record made
of a single empty field never fires here: every record written by the app
has seven fields.) -/
def encodeField (f : List Char) : List Char :=
  if f.any isCsvSpecial then '"' :: (doubleQuotes f ++ ['"']) else f

/-- Encode the fields of one record, separated by commas. -/
def encodeRecord : List (List Char) → List Char
  | [] => []
  | [f] => encodeField f
  | f :: rest => encodeField f ++ ',' :: encodeRecord rest

/-- One CSV line: an encoded record plus the CR LF terminator. -/
def csvLine (fs : List (List Char)) : List Char := encodeRecord fs ++ ['\r', '\n']

/-- States of the CSV reading automaton, mirroring the `_csv` tokenizer:
before a record, before a field, inside an unquoted field, inside a quoted
field, just after a quote inside a quoted field, and just after a CR that
ended a record (so that a following LF is not a blank line). -/
inductive CsvState where
  | startRecord | afterCR | startField | inField | inQuoted | quoteInQuoted
deriving DecidableEq, Repr

/-- The CSV reading automaton.  Arguments: state, current field, fields of
the current record, remaining input; result: the list of decoded records.
Unquoted fields end at a comma or a record terminator; quoted fields take
every character literally until the closing quote, a doubled quote being a
literal one; in non-strict mode characters after a closing quote fall back
into the unquoted field; CR LF, lone CR and lone LF all terminate a
record, and a record terminator seen before any field yields the empty
(blank-line) record. -/
def csvScan (st : CsvState) (field : List Char) (rec : List (List Char)) :
    List Char → List (List (List Char))
  | [] =>
    match st with
    | .startRecord => []
    | .afterCR => []
    | .startField => [rec ++ [[]]]
    | _ => [rec ++ [field]]
  | c :: rest =>
    match st with
    | .startRecord =>
      if c = '\r' then [] :: csvScan .afterCR [] [] rest
      else if c = '\n' then [] :: csvScan .startRecord [] [] rest
      else if c = ',' then csvScan .startField [] (rec ++ [[]]) rest
      else if c = '"' then csvScan .inQuoted [] rec rest
      else csvScan .inField [c] rec rest
    | .afterCR =>
      if c = '\n' then csvScan .startRecord [] [] rest
      else if c = '\r' then [] :: csvScan .afterCR [] [] rest
      else if c = ',' then csvScan .startField [] [[]] rest
      else if c = '"' then csvScan .inQuoted [] [] rest
      else csvScan .inField [c] [] rest
    | .startField =>
      if c = ',' then csvScan .startField [] (rec ++ [[]]) rest
      else if c = '"' then csvScan .inQuoted [] rec rest
      else if c = '\r' then (rec ++ [[]]) :: csvScan .afterCR [] [] rest
      else if c = '\n' then (rec ++ [[]]) :: csvScan .startRecord [] [] rest
      else csvScan .inField [c] rec rest
    | .inField =>
      if c = ',' then csvScan .startField [] (rec ++ [field]) rest
      else if c = '\r' then (rec ++ [field]) :: csvScan .afterCR [] [] rest
      else if c = '\n' then (rec ++ [field]) :: csvScan .startRecord [] [] rest
      else csvScan .inField (field ++ [c]) rec rest
    | .inQuoted =>
      if c = '"' then csvScan .quoteInQuoted field rec rest
      else csvScan .inQuoted (field ++ [c]) rec rest
    | .quoteInQuoted =>
      if c = '"' then csvScan .inQuoted (field ++ ['"']) rec rest
      else if c = ',' then csvScan .startField [] (rec ++ [field]) rest
      else if c = '\r' then (rec ++ [field]) :: csvScan .afterCR [] [] rest
      else if c = '\n' then (rec ++ [field]) :: csvScan .startRecord [] [] rest
      else csvScan .inField (field ++ [c]) rec rest

/-- Decode a whole file into its records. -/
def csvRecords (content : List Char) : List (List (List Char)) :=
  csvScan .startRecord [] [] content

/-- The header fields written by `ensure_csv_exists` and
`overwrite_appointments` (and, as `DictWriter` field names, the key set of
every row dictionary). -/
def headerFields : List (List Char) :=
  [("timestamp").data, ("name").data, ("contact").data, ("date").data,
   ("time").data, ("issue_type").data, ("notes").data]

/-- The seven cells of a row, in header order (`DictWriter.writerow`). -/
def rowRecord (r : Row) : List (List Char) :=
  [r.timestamp.data, r.name.data, r.contact.data, r.date.data, r.time.data,
   r.issue_type.data, r.notes.data]

/-- Model of `overwrite_appointments` at file level: a header line
followed by one line per row.  (On an empty list the Python code writes
the header-only file directly; on a non-empty list `DictWriter` writes the
same header, the field names being the keys of `rows[0]`.) -/
def overwrite_appointments (rows : List Row) : List Char :=
  csvLine headerFields ++ (rows.map fun r => csvLine (rowRecord r)).flatten

/-- Rebuild a row from the decoded cells of one record, by header
position; a missing cell is modelled as the empty string (Python's
`DictReader` would put `None`, which no caller of the app ever meets:
every written record has exactly seven cells). -/
def recToRow (rec : List (List Char)) : Row :=
  { timestamp := ⟨rec.getD 0 []⟩
    name := ⟨rec.getD 1 []⟩
    contact := ⟨rec.getD 2 []⟩
    date := ⟨rec.getD 3 []⟩
    time := ⟨rec.getD 4 []⟩
    issue_type := ⟨rec.getD 5 []⟩
    notes := ⟨rec.getD 6 []⟩ }

/-- Model of `read_appointments`: a missing file gives the empty list;
otherwise `DictReader` takes the first record as field names and yields
one dictionary per remaining record, skipping blank rows.  (The model
reads the cells positionally, which is `DictReader`'s behaviour whenever
the header is the standard one — the only header this app ever writes.) -/
def read_appointments (file : Option (List Char)) : List Row :=
  match file with
  | none => []
  | some content =>
    match csvRecords content with
    | [] => []
    | _header :: body => (body.filter fun rec => rec ≠ []).map recToRow

/-! ## Helper lemmas -/

theorem remove_from_cart_of_absent (cart : List Product) (n : String)
    (h : ∀ q ∈ cart, q.name ≠ n) : remove_from_cart cart n = cart := by
  induction cart with
  | nil => rfl
  | cons p rest ih =>
    have hp : p.name ≠ n := h p (List.mem_cons_self p rest)
    simp only [remove_from_cart, if_neg hp]
    rw [ih fun q hq => h q (List.mem_cons_of_mem p hq)]

theorem remove_from_cart_first (l1 l2 : List Product) (p : Product) (n : String)
    (hp : p.name = n) (h : ∀ q ∈ l1, q.name ≠ n) :
    remove_from_cart (l1 ++ p :: l2) n = l1 ++ l2 := by
  induction l1 with
  | nil => simp [remove_from_cart, hp]
  | cons q rest ih =>
    have hq : q.name ≠ n := h q (List.mem_cons_self q rest)
    have ih' := ih fun x hx => h x (List.mem_cons_of_mem q hx)
    simp only [List.cons_append, remove_from_cart, if_neg hq]
    show q :: remove_from_cart (rest ++ p :: l2) n = q :: (rest ++ l2)
    rw [ih']

theorem findByKeywordAux_eq_filter (k : String) (l : List Product) :
    findByKeywordAux k l = l.filter fun p => strContains k (pyLower p.name) := by
  induction l with
  | nil => rfl
  | cons p rest ih =>
    by_cases h : strContains k (pyLower p.name) = true
    · simp [findByKeywordAux, List.filter_cons, h, ih]
    · simp [findByKeywordAux, List.filter_cons, h, ih]

theorem average_price_isSome (ps : List Product) :
    (average_price ps).isSome ↔ ps ≠ [] := by
  rcases ps with _ | ⟨p, ps⟩
  · simp [average_price]
  · simp [average_price]

theorem summary_isSome (ps : List Product) : (summary ps).isSome ↔ ps ≠ [] := by
  rw [summary, Option.isSome_map']
  exact average_price_isSome ps

/-! ## Claim C6 -/

/-- C6: add/remove round-trip for the shopping cart.  Adding a product
whose name does not occur in the cart and then removing by that name
restores the cart; removing an absent name is the identity; and
`remove_from_cart` removes exactly the first item carrying the name. -/
theorem cart_add_remove_spec :
    (∀ (cart : List Product) (p : Product), (∀ q ∈ cart, q.name ≠ p.name) →
      remove_from_cart (add_to_cart cart p) p.name = cart) ∧
    (∀ (cart : List Product) (n : String), (∀ q ∈ cart, q.name ≠ n) →
      remove_from_cart cart n = cart) ∧
    (∀ (l1 l2 : List Product) (p : Product) (n : String), p.name = n →
      (∀ q ∈ l1, q.name ≠ n) → remove_from_cart (l1 ++ p :: l2) n = l1 ++ l2) := by
  refine ⟨?_, remove_from_cart_of_absent, remove_from_cart_first⟩
  intro cart p h
  have := remove_from_cart_first cart [] p p.name rfl h
  simpa [add_to_cart] using this

/-- Witness for C6 at a concrete two-product instance. -/
theorem cart_add_remove_witness :
    remove_from_cart (add_to_cart [⟨"Yoga Mat", "Sports", 49/2⟩]
      ⟨"Wireless Earbuds", "Electronics", 5999/100⟩) "Wireless Earbuds" =
      [⟨"Yoga Mat", "Sports", 49/2⟩] :=
  cart_add_remove_spec.1 [⟨"Yoga Mat", "Sports", 49/2⟩]
    ⟨"Wireless Earbuds", "Electronics", 5999/100⟩ (by decide)

/-! ## Claim C7 -/

/-- C7: `analyze_text` with `strip_spaces=True` reports the original
string, the stripped string, the processed length twice, the
whitespace-separated word count, and case flags holding exactly when the
processed string equals its lowercase, uppercase and title-case forms. -/
theorem analyze_text_spec (s : String) :
    (analyze_text s true).original = s ∧
    (analyze_text s true).processed = pyStrip s ∧
    (analyze_text s true).length = (pyStrip s).data.length ∧
    (analyze_text s true).count_char = (pyStrip s).data.length ∧
    (analyze_text s true).word_count = (pySplit (pyStrip s)).length ∧
    ((analyze_text s true).is_lower = true ↔ pyStrip s = pyLower (pyStrip s)) ∧
    ((analyze_text s true).is_upper = true ↔ pyStrip s = pyUpper (pyStrip s)) ∧
    ((analyze_text s true).is_title = true ↔ pyStrip s = pyTitle (pyStrip s)) := by
  simp [analyze_text]

/-- Witness for C7 at a concrete string. -/
theorem analyze_text_witness :
    (analyze_text "  Ab cd  " true).processed = pyStrip "  Ab cd  " :=
  (analyze_text_spec "  Ab cd  ").2.1

/-! ## Claim C9 -/

/-- C9: `average_price` is defined exactly on non-empty product lists,
where it is the price sum divided by the length; on the empty list the
division by zero raises (`none`), and `summary`, which calls it
unconditionally, inherits the non-emptiness precondition. -/
theorem average_price_spec :
    average_price [] = none ∧
    (∀ ps : List Product, ps ≠ [] →
      average_price ps = some ((ps.map Product.price).sum / (ps.length : ℚ))) ∧
    (∀ ps : List Product, (average_price ps).isSome ↔ ps ≠ []) ∧
    (∀ ps : List Product, (summary ps).isSome ↔ ps ≠ []) := by
  refine ⟨rfl, fun ps h => ?_, average_price_isSome, summary_isSome⟩
  rw [average_price, if_neg]
  simpa using h

/-- Witness for C9 at a concrete one-product list. -/
theorem average_price_witness :
    average_price [⟨"Smart LED Bulb", "Home", 1299/100⟩] =
      some ((([⟨"Smart LED Bulb", "Home", 1299/100⟩] : List Product).map
        Product.price).sum /
        (([⟨"Smart LED Bulb", "Home", 1299/100⟩] : List Product).length : ℚ)) :=
  average_price_spec.2.1 _ (List.cons_ne_nil _ _)

/-! ## Claim C10 -/

/-- C10: keyword search returns exactly the products whose lowercased name
contains the lowercased keyword as a substring, preserving the input order
(it equals the corresponding filter), and the empty keyword matches every
product. -/
theorem find_products_by_keyword_spec :
    (∀ (ps : List Product) (kw : String),
      find_products_by_keyword ps kw =
        ps.filter fun p => strContains (pyLower kw) (pyLower p.name)) ∧
    (∀ (ps : List Product) (kw : String) (p : Product),
      p ∈ find_products_by_keyword ps kw ↔
        p ∈ ps ∧ (pyLower kw).data <:+: (pyLower p.name).data) ∧
    (∀ ps : List Product, find_products_by_keyword ps "" = ps) := by
  have h1 : ∀ (ps : List Product) (kw : String),
      find_products_by_keyword ps kw =
        ps.filter fun p => strContains (pyLower kw) (pyLower p.name) :=
    fun ps kw => findByKeywordAux_eq_filter (pyLower kw) ps
  refine ⟨h1, fun ps kw p => ?_, fun ps => ?_⟩
  · rw [h1, List.mem_filter]
    simp [strContains]
  · rw [h1]
    refine List.filter_eq_self.mpr fun p _ => ?_
    simp only [strContains, decide_eq_true_eq]
    have hnil : (pyLower "").data = [] := rfl
    exact ⟨[], (pyLower p.name).data, by simp [hnil]⟩

/-- Witness for C10 at a concrete product list. -/
theorem find_products_by_keyword_witness :
    find_products_by_keyword [⟨"Wireless Earbuds", "Electronics", 5999/100⟩,
        ⟨"Yoga Mat", "Sports", 49/2⟩] "ear" =
      List.filter (fun p => strContains (pyLower "ear") (pyLower p.name))
        [⟨"Wireless Earbuds", "Electronics", 5999/100⟩,
         ⟨"Yoga Mat", "Sports", 49/2⟩] :=
  find_products_by_keyword_spec.1 _ "ear"

theorem update_appointment_absent (rows : List Row) (ts : String) (nr : Row)
    (h : ∀ r ∈ rows, r.timestamp ≠ ts) : update_appointment rows ts nr = (rows, false) := by
  induction rows with
  | nil => rfl
  | cons r rest ih =>
    have hr : r.timestamp ≠ ts := h r (List.mem_cons_self r rest)
    simp [update_appointment, hr, ih fun x hx => h x (List.mem_cons_of_mem r hx)]

theorem update_appointment_first (l1 : List Row) (rold : Row) (l2 : List Row)
    (ts : String) (nr : Row) (h1 : ∀ r ∈ l1, r.timestamp ≠ ts)
    (hold : rold.timestamp = ts) :
    update_appointment (l1 ++ rold :: l2) ts nr = (l1 ++ nr :: l2, true) := by
  induction l1 with
  | nil => simp [update_appointment, hold]
  | cons q rest ih =>
    have hq : q.timestamp ≠ ts := h1 q (List.mem_cons_self q rest)
    have ih' := ih fun x hx => h1 x (List.mem_cons_of_mem q hx)
    simp [update_appointment, hq, ih']

theorem update_appointment_snd_iff (rows : List Row) (ts : String) (nr : Row) :
    (update_appointment rows ts nr).2 = true ↔ ∃ r ∈ rows, r.timestamp = ts := by
  induction rows with
  | nil => simp [update_appointment]
  | cons r rest ih =>
    by_cases hr : r.timestamp = ts
    · simp [update_appointment, hr]
    · simp [update_appointment, hr, ih]

theorem update_appointment_decomp (rows : List Row) (ts : String) (nr : Row)
    (h : ∃ r ∈ rows, r.timestamp = ts) :
    ∃ l1 rold l2, rows = l1 ++ rold :: l2 ∧ (∀ r ∈ l1, r.timestamp ≠ ts) ∧
      rold.timestamp = ts ∧ (update_appointment rows ts nr).1 = l1 ++ nr :: l2 := by
  induction rows with
  | nil => simp at h
  | cons r rest ih =>
    by_cases hr : r.timestamp = ts
    · exact ⟨[], r, rest, by simp, by simp, hr, by simp [update_appointment, hr]⟩
    · have hrest : ∃ x ∈ rest, x.timestamp = ts := by
        rcases h with ⟨x, hx, hts⟩
        rcases List.mem_cons.mp hx with rfl | hx'
        · exact absurd hts hr
        · exact ⟨x, hx', hts⟩
      obtain ⟨l1, rold, l2, hsplit, hl1, hold, hupd⟩ := ih hrest
      refine ⟨r :: l1, rold, l2, by simp [hsplit], ?_, hold, ?_⟩
      · intro x hx
        rcases List.mem_cons.mp hx with rfl | hx'
        · exact hr
        · exact hl1 x hx'
      · simp [update_appointment, hr, hupd]

/-! ## Claim C3 -/

/-- C3: `delete_appointment` removes exactly the rows whose timestamp
field equals the argument (a filter, hence the remaining rows keep their
relative order), returns `True` exactly when at least one row matched,
and when it returns `False` it has returned before any write, leaving the
stored state unchanged. -/
theorem delete_appointment_spec (rows : List Row) (ts : String) :
    (delete_appointment rows ts).1 = rows.filter (fun r => r.timestamp != ts) ∧
    ((delete_appointment rows ts).2 = true ↔ ∃ r ∈ rows, r.timestamp = ts) ∧
    ((delete_appointment rows ts).2 = false → (delete_appointment rows ts).1 = rows) := by
  by_cases h : (rows.filter fun r => r.timestamp != ts).length = rows.length
  · have hfil : (rows.filter fun r => r.timestamp != ts) = rows :=
      (List.filter_sublist rows).eq_of_length h
    have hnone : ¬ ∃ r ∈ rows, r.timestamp = ts := by
      rintro ⟨r, hr, hts⟩
      have := List.filter_eq_self.mp hfil r hr
      simp [hts] at this
    refine ⟨?_, ?_, fun _ => ?_⟩
    · simp [delete_appointment, h, hfil]
    · simp only [delete_appointment, h, if_true, if_pos]
      simpa using hnone
    · simp [delete_appointment, h]
  · have hsome : ∃ r ∈ rows, r.timestamp = ts := by
      by_contra hno
      push_neg at hno
      have : (rows.filter fun r => r.timestamp != ts) = rows :=
        List.filter_eq_self.mpr fun r hr => by simpa using hno r hr
      exact h (by rw [this])
    refine ⟨?_, ?_, ?_⟩
    · simp [delete_appointment, h]
    · simpa [delete_appointment, h] using hsome
    · simp [delete_appointment, h]

/-- Witness for C3 at a concrete store with no matching timestamp. -/
theorem delete_appointment_witness :
    (delete_appointment [⟨"t1", "a", "c", "2025-01-01", "09:00", "Other", ""⟩] "zz").1 =
      [⟨"t1", "a", "c", "2025-01-01", "09:00", "Other", ""⟩] :=
  (delete_appointment_spec _ "zz").2.2 (by decide)

/-! ## Claim C4 -/

/-- C4: `update_appointment` replaces exactly the first stored row whose
timestamp equals the argument with `new_row`, keeping every other row in
place, and returns `True` exactly when such a row exists; with no match it
returns `False` before any write, leaving the stored state unchanged. -/
theorem update_appointment_spec (rows : List Row) (ts : String) (nr : Row) :
    ((update_appointment rows ts nr).2 = true ↔ ∃ r ∈ rows, r.timestamp = ts) ∧
    ((update_appointment rows ts nr).2 = false → (update_appointment rows ts nr).1 = rows) ∧
    (∀ l1 rold l2, rows = l1 ++ rold :: l2 → (∀ r ∈ l1, r.timestamp ≠ ts) →
      rold.timestamp = ts → (update_appointment rows ts nr).1 = l1 ++ nr :: l2) := by
  refine ⟨update_appointment_snd_iff rows ts nr, fun hf => ?_,
    fun l1 rold l2 hsplit hl1 hold => ?_⟩
  · have hno : ∀ r ∈ rows, r.timestamp ≠ ts := by
      intro r hr hts
      have := (update_appointment_snd_iff rows ts nr).mpr ⟨r, hr, hts⟩
      rw [hf] at this
      exact Bool.false_ne_true this
    rw [update_appointment_absent rows ts nr hno]
  · subst hsplit
    rw [update_appointment_first l1 rold l2 ts nr hl1 hold]

/-- Witness for C4: replacing the second of two rows. -/
theorem update_appointment_witness :
    (update_appointment
      [⟨"t1", "a", "c", "2025-01-01", "09:00", "Other", ""⟩,
       ⟨"t2", "b", "c", "2025-01-02", "10:00", "Other", ""⟩] "t2"
      ⟨"t2", "b", "c", "2025-01-03", "11:00", "Other", ""⟩).1 =
      [⟨"t1", "a", "c", "2025-01-01", "09:00", "Other", ""⟩] ++
        ⟨"t2", "b", "c", "2025-01-03", "11:00", "Other", ""⟩ :: [] :=
  (update_appointment_spec _ "t2" _).2.2
    [⟨"t1", "a", "c", "2025-01-01", "09:00", "Other", ""⟩]
    ⟨"t2", "b", "c", "2025-01-02", "10:00", "Other", ""⟩ [] rfl (by decide) rfl

theorem rowConflicts_iff (d t : String) (b : Int) (r : Row)
    (hr : (parseTimeMinutes r.time).isSome) (ht : (parseTimeMinutes t).isSome) :
    rowConflicts d t b r = true ↔
      r.date = d ∧ ∃ mr mt, parseTimeMinutes r.time = some mr ∧
        parseTimeMinutes t = some mt ∧
        ((0 < b ∧ ((mr - mt).natAbs : Int) ≤ b) ∨ (b = 0 ∧ mr = mt)) := by
  obtain ⟨mt, hmt⟩ := Option.isSome_iff_exists.mp ht
  obtain ⟨mr, hmr⟩ := Option.isSome_iff_exists.mp hr
  have hne : (r.time == "") = false := by
    rw [beq_eq_false_iff_ne]
    intro h0
    rw [h0] at hmr
    exact Option.noConfusion hmr
  by_cases hd : r.date = d
  · simp only [rowConflicts, hd, bne_self_eq_false, Bool.false_eq_true, if_false,
      hne, hmt, hmr, true_and, Option.some.injEq]
    constructor
    · intro h
      split_ifs at h with h1 h2
      · exact ⟨mr, mt, rfl, rfl, Or.inl ⟨by omega, h1.2⟩⟩
      · exact ⟨mr, mt, rfl, rfl, Or.inr ⟨h2.2, h2.1⟩⟩
    · rintro ⟨mr', mt', h1', h2', hcase⟩
      subst h1'
      subst h2'
      split_ifs with h1 h2
      · rfl
      · rfl
      · exfalso
        rcases hcase with ⟨hb, habs⟩ | ⟨hb, heq⟩
        · exact h1 ⟨by omega, habs⟩
        · exact h2 ⟨heq, hb⟩
  · have hbd : (r.date != d) = true := by simp [hd]
    simp only [rowConflicts, hbd, if_true]
    simp [hd]

theorem ignoredBy_false_iff (ig : Option String) (r : Row) :
    ignoredBy ig r = false ↔ (ig = none ∨ ig = some "" ∨ ig ≠ some r.timestamp) := by
  cases ig with
  | none => simp [ignoredBy, ignoreTruthy]
  | some s =>
    by_cases hs : s = ""
    · subst hs
      simp [ignoredBy, ignoreTruthy]
    · have hred : ignoredBy (some s) r = (some r.timestamp == some s) := by
        simp [ignoredBy, ignoreTruthy, hs]
      rw [hred, beq_eq_false_iff_ne]
      constructor
      · intro h
        exact Or.inr (Or.inr fun hc => h hc.symm)
      · rintro (h | h | h)
        · exact absurd h (by simp)
        · exact absurd (Option.some.inj h) hs
        · exact fun he => h he.symm

theorem find_conflict_any (rows : List Row) (d t : String) (ig : Option String)
    (b : Int) :
    find_conflict rows d t ig b = true ↔
      ∃ r ∈ rows, ignoredBy ig r = false ∧ rowConflicts d t b r = true := by
  rw [find_conflict, List.any_eq_true]
  constructor
  · rintro ⟨r, hr, hp⟩
    by_cases hi : ignoredBy ig r = true
    · rw [if_pos hi] at hp
      exact absurd hp (by simp)
    · rw [if_neg hi] at hp
      exact ⟨r, hr, by simpa using hi, hp⟩
  · rintro ⟨r, hr, hif, hc⟩
    refine ⟨r, hr, ?_⟩
    rw [if_neg (by simp [hif])]
    exact hc

/-! ## Claim C2 -/

/-- C2: when every stored time field and the requested time parse as H:MM
integers, `find_conflict` returns `True` exactly when some stored row is
not excluded by `ignore_ts` (absent or empty `ignore_ts` excludes
nothing), has the requested date, and its time in minutes is within the
positive buffer, or equal to the requested minutes when the buffer is
zero. -/
theorem find_conflict_spec (rows : List Row) (d t : String) (ig : Option String)
    (b : Int) (hrows : ∀ r ∈ rows, (parseTimeMinutes r.time).isSome)
    (ht : (parseTimeMinutes t).isSome) :
    find_conflict rows d t ig b = true ↔
      ∃ r ∈ rows,
        (ig = none ∨ ig = some "" ∨ ig ≠ some r.timestamp) ∧ r.date = d ∧
        ∃ mr mt, parseTimeMinutes r.time = some mr ∧ parseTimeMinutes t = some mt ∧
          ((0 < b ∧ ((mr - mt).natAbs : Int) ≤ b) ∨ (b = 0 ∧ mr = mt)) := by
  rw [find_conflict_any]
  constructor
  · rintro ⟨r, hr, hig, hc⟩
    exact ⟨r, hr, (ignoredBy_false_iff ig r).mp hig,
      ((rowConflicts_iff d t b r (hrows r hr) ht).mp hc).1,
      ((rowConflicts_iff d t b r (hrows r hr) ht).mp hc).2⟩
  · rintro ⟨r, hr, hig, hdate, hrest⟩
    exact ⟨r, hr, (ignoredBy_false_iff ig r).mpr hig,
      (rowConflicts_iff d t b r (hrows r hr) ht).mpr ⟨hdate, hrest⟩⟩

/-- Witness for C2 at a concrete store, requested slot and buffer. -/
theorem find_conflict_spec_witness :
    find_conflict [⟨"x", "n", "c", "2025-01-01", "10:00", "Other", ""⟩]
        "2025-01-01" "10:30" none 45 = true ↔
      ∃ r ∈ [(⟨"x", "n", "c", "2025-01-01", "10:00", "Other", ""⟩ : Row)],
        ((none : Option String) = none ∨ (none : Option String) = some "" ∨
          (none : Option String) ≠ some r.timestamp) ∧ r.date = "2025-01-01" ∧
        ∃ mr mt, parseTimeMinutes r.time = some mr ∧
          parseTimeMinutes "10:30" = some mt ∧
          ((0 < (45 : Int) ∧ ((mr - mt).natAbs : Int) ≤ 45) ∨
            ((45 : Int) = 0 ∧ mr = mt)) :=
  find_conflict_spec _ "2025-01-01" "10:30" none 45 (by decide) (by decide)

theorem ignoredBy_some_of_ne (ts : String) (r : Row) (h : r.timestamp ≠ ts) :
    ignoredBy (some ts) r = false := by
  by_cases hts0 : ts = ""
  · simp [ignoredBy, ignoreTruthy, hts0]
  · have : ignoredBy (some ts) r = (some r.timestamp == some ts) := by
      simp [ignoredBy, ignoreTruthy, hts0]
    rw [this, beq_eq_false_iff_ne]
    exact fun hc => h (Option.some.inj hc)

theorem find_conflict_false_no_slot (rows : List Row) (d t : String)
    (ig : Option String) (hfc : find_conflict rows d t ig 0 = false)
    (hrows : ∀ r ∈ rows, (parseTimeMinutes r.time).isSome)
    (ht : (parseTimeMinutes t).isSome) (r : Row) (hr : r ∈ rows)
    (hig : ignoredBy ig r = false) : (r.date, r.time) ≠ (d, t) := by
  intro hpair
  have hdate : r.date = d := congrArg Prod.fst hpair
  have htime : r.time = t := congrArg Prod.snd hpair
  obtain ⟨mt, hmt⟩ := Option.isSome_iff_exists.mp ht
  have hconf : rowConflicts d t 0 r = true := by
    refine (rowConflicts_iff d t 0 r (hrows r hr) ht).mpr
      ⟨hdate, mt, mt, ?_, hmt, Or.inr ⟨rfl, rfl⟩⟩
    rw [htime]
    exact hmt
  rw [find_conflict] at hfc
  have := List.any_eq_false.mp hfc r hr
  rw [if_neg (by simp [hig]), hconf] at this
  exact this rfl

theorem submit_preserves_distinctSlots (rows : List Row) (nr : Row)
    (hinv : distinctSlots rows)
    (hrows : ∀ r ∈ rows, (parseTimeMinutes r.time).isSome)
    (ht : (parseTimeMinutes nr.time).isSome)
    (hfc : find_conflict rows nr.date nr.time none 0 = false) :
    distinctSlots (append_appointment rows nr) := by
  unfold distinctSlots append_appointment
  rw [List.map_append, List.nodup_append]
  refine ⟨hinv, List.nodup_singleton _, ?_⟩
  intro p hp hq
  simp only [List.map_cons, List.map_nil, List.mem_singleton] at hq
  subst hq
  obtain ⟨r, hr, hpair⟩ := List.mem_map.mp hp
  exact find_conflict_false_no_slot rows nr.date nr.time none hfc hrows ht r hr rfl hpair

theorem edit_preserves_distinctSlots (rows : List Row) (ts : String) (nr : Row)
    (hinv : distinctSlots rows)
    (hts : (rows.map Row.timestamp).Nodup)
    (hrows : ∀ r ∈ rows, (parseTimeMinutes r.time).isSome)
    (ht : (parseTimeMinutes nr.time).isSome)
    (hfc : find_conflict rows nr.date nr.time (some ts) 0 = false) :
    distinctSlots (update_appointment rows ts nr).1 := by
  by_cases hex : ∃ r ∈ rows, r.timestamp = ts
  · obtain ⟨l1, rold, l2, hsplit, hl1, hold, hupd⟩ :=
      update_appointment_decomp rows ts nr hex
    rw [hupd]
    have hts2 : ∀ r ∈ l1 ++ l2, r.timestamp ≠ ts := by
      intro r hr he
      have hmid : ((l1.map Row.timestamp) ++ rold.timestamp ::
          (l2.map Row.timestamp)).Nodup := by
        rw [hsplit] at hts
        simpa using hts
      have hnm := List.nodup_middle.mp hmid
      have hnot := (List.nodup_cons.mp hnm).1
      refine hnot ?_
      rw [hold, ← he]
      rcases List.mem_append.mp hr with h | h
      · exact List.mem_append.mpr (Or.inl (List.mem_map_of_mem _ h))
      · exact List.mem_append.mpr (Or.inr (List.mem_map_of_mem _ h))
    have hmemrows : ∀ r ∈ l1 ++ l2, r ∈ rows := by
      intro r hr
      rw [hsplit]
      rcases List.mem_append.mp hr with h | h
      · exact List.mem_append.mpr (Or.inl h)
      · exact List.mem_append.mpr (Or.inr (List.mem_cons_of_mem _ h))
    have hmid : ((l1.map fun r => (r.date, r.time)) ++
        (rold.date, rold.time) :: (l2.map fun r => (r.date, r.time))).Nodup := by
      rw [hsplit] at hinv
      unfold distinctSlots at hinv
      simpa using hinv
    have hrest := (List.nodup_cons.mp (List.nodup_middle.mp hmid)).2
    unfold distinctSlots
    have hgoal : ((l1.map fun r => (r.date, r.time)) ++
        (nr.date, nr.time) :: (l2.map fun r => (r.date, r.time))).Nodup := by
      rw [List.nodup_middle, List.nodup_cons]
      refine ⟨?_, hrest⟩
      intro hmem
      have hmem2 : (nr.date, nr.time) ∈ ((l1 ++ l2).map fun r => (r.date, r.time)) := by
        rw [List.map_append]
        exact hmem
      obtain ⟨r, hr, hpair⟩ := List.mem_map.mp hmem2
      exact find_conflict_false_no_slot rows nr.date nr.time (some ts) hfc hrows ht
        r (hmemrows r hr) (ignoredBy_some_of_ne ts r (hts2 r hr)) hpair
    simpa using hgoal
  · push_neg at hex
    rw [update_appointment_absent rows ts nr hex]
    exact hinv

/-! ## Claim C1 -/

/-- C1, counterexample to the claim as stated: when two stored rows share
the edited row's timestamp, `find_conflict` with `ignore_ts` skips both of
them even though `update_appointment` replaces only the first, so the
guarded update can duplicate a `(date, time)` pair although every stated
precondition (pairwise-distinct pairs, H:MM times, conflict check `False`
with the edited timestamp ignored, new row produced by the edit form)
holds. -/
theorem booking_invariant_counterexample :
    distinctSlots [⟨"a", "n", "c", "d", "1:00", "Other", ""⟩,
      ⟨"a", "n", "c", "d", "2:00", "Other", ""⟩] ∧
    (∀ r ∈ [(⟨"a", "n", "c", "d", "1:00", "Other", ""⟩ : Row),
      ⟨"a", "n", "c", "d", "2:00", "Other", ""⟩], (parseTimeMinutes r.time).isSome) ∧
    (parseTimeMinutes "2:00").isSome ∧
    find_conflict [⟨"a", "n", "c", "d", "1:00", "Other", ""⟩,
      ⟨"a", "n", "c", "d", "2:00", "Other", ""⟩] "d" "2:00" (some "a") 0 = false ∧
    (Row.mk "a" "n" "c" "d" "2:00" "Other" "").date = "d" ∧
    (Row.mk "a" "n" "c" "d" "2:00" "Other" "").time = "2:00" ∧
    (Row.mk "a" "n" "c" "d" "2:00" "Other" "").timestamp = "a" ∧
    (update_appointment [⟨"a", "n", "c", "d", "1:00", "Other", ""⟩,
      ⟨"a", "n", "c", "d", "2:00", "Other", ""⟩] "a"
      ⟨"a", "n", "c", "d", "2:00", "Other", ""⟩).2 = true ∧
    ¬ distinctSlots (update_appointment [⟨"a", "n", "c", "d", "1:00", "Other", ""⟩,
      ⟨"a", "n", "c", "d", "2:00", "Other", ""⟩] "a"
      ⟨"a", "n", "c", "d", "2:00", "Other", ""⟩).1 := by
  decide

/-- C1 (amended): the conflict-guarded append of the submit flow preserves
pairwise-distinct `(date, time)` pairs, and the conflict-guarded update of
the edit flow preserves them as well provided the stored timestamps are
pairwise distinct (without that extra hypothesis the update direction is
false, see the counterexample). -/
theorem booking_no_double_booking :
    (∀ (rows : List Row) (nr : Row), distinctSlots rows →
      (∀ r ∈ rows, (parseTimeMinutes r.time).isSome) →
      (parseTimeMinutes nr.time).isSome →
      find_conflict rows nr.date nr.time none 0 = false →
      distinctSlots (append_appointment rows nr)) ∧
    (∀ (rows : List Row) (ts : String) (nr : Row), distinctSlots rows →
      (rows.map Row.timestamp).Nodup →
      (∀ r ∈ rows, (parseTimeMinutes r.time).isSome) →
      (parseTimeMinutes nr.time).isSome →
      find_conflict rows nr.date nr.time (some ts) 0 = false →
      distinctSlots (update_appointment rows ts nr).1) :=
  ⟨submit_preserves_distinctSlots, edit_preserves_distinctSlots⟩

/-- Witness for the amended C1: a concrete guarded append and a concrete
guarded update, both preserving the invariant. -/
theorem booking_no_double_booking_witness :
    distinctSlots (append_appointment
      [⟨"t1", "a", "c", "2025-01-01", "09:00", "Other", ""⟩]
      ⟨"t2", "b", "c", "2025-01-01", "10:00", "Other", ""⟩) ∧
    distinctSlots (update_appointment
      [⟨"t1", "a", "c", "2025-01-01", "09:00", "Other", ""⟩,
       ⟨"t2", "b", "c", "2025-01-01", "10:00", "Other", ""⟩] "t2"
      ⟨"t2", "b", "c", "2025-01-01", "11:00", "Other", ""⟩).1 :=
  ⟨booking_no_double_booking.1 _ _ (by decide) (by decide) (by decide) (by decide),
   booking_no_double_booking.2 _ "t2" _ (by decide) (by decide) (by decide)
     (by decide) (by decide)⟩

theorem not_dateLt_iff (a b : PyDate) : ¬ dateLt a b ↔ dateLe b a := by
  obtain ⟨ay, am, ad⟩ := a
  obtain ⟨cy, cm, cd⟩ := b
  simp only [dateLt, dateLe, PyDate.mk.injEq]
  omega

theorem rowPasses_eq_spec (df dt : PyDate) (ty : List String) (q : String) (r : Row) :
    rowPasses df dt ty q r =
      ((match parseIsoDate r.date with
        | some rd => decide (dateLe df rd ∧ dateLe rd dt)
        | none => false)
       && decide (ty = [] ∨ r.issue_type ∈ ty)
       && decide (q = "" ∨ q.data <:+: (searchHay r).data)) := by
  cases hp : parseIsoDate r.date with
  | none => simp [rowPasses, hp]
  | some rd =>
    simp only [rowPasses, hp]
    by_cases h1 : dateLt rd df ∨ dateLt dt rd
    · rw [if_pos h1]
      have hno : ¬ (dateLe df rd ∧ dateLe rd dt) := by
        rcases h1 with h | h
        · exact fun hc => ((not_dateLt_iff rd df).mpr hc.1) h
        · exact fun hc => ((not_dateLt_iff dt rd).mpr hc.2) h
      simp [hno]
    · rw [if_neg h1]
      push_neg at h1
      have hdle : dateLe df rd ∧ dateLe rd dt :=
        ⟨(not_dateLt_iff rd df).mp h1.1, (not_dateLt_iff dt rd).mp h1.2⟩
      by_cases h2 : ty ≠ [] ∧ r.issue_type ∉ ty
      · rw [if_pos h2]
        have hno : ¬ (ty = [] ∨ r.issue_type ∈ ty) := by
          rintro (h | h)
          · exact h2.1 h
          · exact h2.2 h
        simp [hno, hdle]
      · rw [if_neg h2]
        have h2' : ty = [] ∨ r.issue_type ∈ ty := by
          by_cases hty : ty = []
          · exact Or.inl hty
          · push_neg at h2
            exact Or.inr (h2 hty)
        by_cases h3 : q ≠ "" ∧ strContains q (searchHay r) = false
        · rw [if_pos h3]
          have hno : ¬ (q = "" ∨ q.data <:+: (searchHay r).data) := by
            rintro (h | h)
            · exact h3.1 h
            · have := h3.2
              rw [strContains, decide_eq_false_iff_not] at this
              exact this h
          simp [hno, hdle, h2']
        · rw [if_neg h3]
          have h3' : q = "" ∨ q.data <:+: (searchHay r).data := by
            by_cases hq : q = ""
            · exact Or.inl hq
            · push_neg at h3
              have hne := h3 hq
              have htrue : strContains q (searchHay r) = true := by
                cases hsc : strContains q (searchHay r)
                · exact absurd hsc hne
                · rfl
              rw [strContains, decide_eq_true_eq] at htrue
              exact Or.inr htrue
          simp [hdle, h2', h3']

/-! ## Claim C5 -/

/-- C5: `filter_appointments` returns exactly the stored rows whose date
field parses as an ISO date inside the inclusive `[date_from, date_to]`
range (unparseable dates are dropped), whose issue type belongs to a
non-empty `types` list, and whose lowercased name/contact/notes haystack
contains the stripped lowercased query when it is non-blank; the result is
sorted ascending by the `(date, time)` string pair. -/
theorem filter_appointments_spec (rows : List Row) (date_from date_to : PyDate)
    (types : List String) (query : String) :
    (filter_appointments rows date_from date_to types query).Perm
      (rows.filter fun r =>
        (match parseIsoDate r.date with
         | some rd => decide (dateLe date_from rd ∧ dateLe rd date_to)
         | none => false)
        && decide (types = [] ∨ r.issue_type ∈ types)
        && decide (pyLower (pyStrip query) = "" ∨
             (pyLower (pyStrip query)).data <:+: (searchHay r).data)) ∧
    List.Sorted sortKey_le (filter_appointments rows date_from date_to types query) := by
  constructor
  · rw [filter_appointments]
    refine (List.perm_insertionSort sortKey_le _).trans ?_
    rw [List.filter_congr fun r _ =>
      rowPasses_eq_spec date_from date_to types (pyLower (pyStrip query)) r]
  · rw [filter_appointments]
    exact List.sorted_insertionSort sortKey_le _

/-- Witness for C5 at a concrete store and filter. -/
theorem filter_appointments_witness :
    List.Sorted sortKey_le (filter_appointments
      [⟨"t1", "a", "c", "2025-01-02", "10:00", "Other", ""⟩,
       ⟨"t2", "b", "c", "2025-01-01", "09:00", "Other", ""⟩]
      ⟨2025, 1, 1⟩ ⟨2025, 12, 31⟩ [] "") :=
  (filter_appointments_spec _ ⟨2025, 1, 1⟩ ⟨2025, 12, 31⟩ [] "").2

/-! ## CSV lemmas: single transitions of the reading automaton

Each lemma is one step of `csvScan` on a concrete input character, stated
for arbitrary accumulators; the literal character makes the step hold by
pure computation. -/

theorem csvScan_sf_comma (rec : List (List Char)) (xs : List Char) :
    csvScan .startField [] rec (',' :: xs) = csvScan .startField [] (rec ++ [[]]) xs := rfl

theorem csvScan_sf_quote (rec : List (List Char)) (xs : List Char) :
    csvScan .startField [] rec ('"' :: xs) = csvScan .inQuoted [] rec xs := rfl

theorem csvScan_sf_cr (rec : List (List Char)) (xs : List Char) :
    csvScan .startField [] rec ('\r' :: xs) = (rec ++ [[]]) :: csvScan .afterCR [] [] xs := rfl

theorem csvScan_sf_other (c : Char) (rec : List (List Char)) (xs : List Char)
    (h : isCsvSpecial c = false) :
    csvScan .startField [] rec (c :: xs) = csvScan .inField [c] rec xs := by
  simp only [isCsvSpecial, decide_eq_false_iff_not] at h
  push_neg at h
  simp [csvScan, h.1, h.2.1, h.2.2.1, h.2.2.2]

theorem csvScan_sr_comma (xs : List Char) :
    csvScan .startRecord [] [] (',' :: xs) = csvScan .startField [] [[]] xs := rfl

theorem csvScan_sr_quote (xs : List Char) :
    csvScan .startRecord [] [] ('"' :: xs) = csvScan .inQuoted [] [] xs := rfl

theorem csvScan_sr_other (c : Char) (xs : List Char) (h : isCsvSpecial c = false) :
    csvScan .startRecord [] [] (c :: xs) = csvScan .inField [c] [] xs := by
  simp only [isCsvSpecial, decide_eq_false_iff_not] at h
  push_neg at h
  simp [csvScan, h.1, h.2.1, h.2.2.1, h.2.2.2]

theorem csvScan_if_comma (f : List Char) (rec : List (List Char)) (xs : List Char) :
    csvScan .inField f rec (',' :: xs) = csvScan .startField [] (rec ++ [f]) xs := rfl

theorem csvScan_if_cr (f : List Char) (rec : List (List Char)) (xs : List Char) :
    csvScan .inField f rec ('\r' :: xs) = (rec ++ [f]) :: csvScan .afterCR [] [] xs := rfl

theorem csvScan_iq_quote (f : List Char) (rec : List (List Char)) (xs : List Char) :
    csvScan .inQuoted f rec ('"' :: xs) = csvScan .quoteInQuoted f rec xs := rfl

theorem csvScan_qq_quote (f : List Char) (rec : List (List Char)) (xs : List Char) :
    csvScan .quoteInQuoted f rec ('"' :: xs) = csvScan .inQuoted (f ++ ['"']) rec xs := rfl

theorem csvScan_qq_comma (f : List Char) (rec : List (List Char)) (xs : List Char) :
    csvScan .quoteInQuoted f rec (',' :: xs) = csvScan .startField [] (rec ++ [f]) xs := rfl

theorem csvScan_qq_cr (f : List Char) (rec : List (List Char)) (xs : List Char) :
    csvScan .quoteInQuoted f rec ('\r' :: xs) = (rec ++ [f]) :: csvScan .afterCR [] [] xs := rfl

theorem csvScan_ac_lf (xs : List Char) :
    csvScan .afterCR [] [] ('\n' :: xs) = csvScan .startRecord [] [] xs := rfl

/-- Scanning the quote-doubled body of a quoted field up to its closing
quote accumulates the field verbatim. -/
theorem csvScan_doubleQuotes (f : List Char) (acc : List Char)
    (rec : List (List Char)) (rest : List Char) :
    csvScan .inQuoted acc rec (doubleQuotes f ++ '"' :: rest) =
      csvScan .quoteInQuoted (acc ++ f) rec rest := by
  induction f generalizing acc with
  | nil => simp [doubleQuotes, csvScan_iq_quote]
  | cons c t ih =>
    by_cases hc : c = '"'
    · subst hc
      rw [doubleQuotes, if_pos rfl, List.cons_append, List.cons_append,
        csvScan_iq_quote, csvScan_qq_quote, ih]
      simp
    · rw [doubleQuotes, if_neg hc, List.cons_append]
      have hstep : csvScan .inQuoted acc rec (c :: (doubleQuotes t ++ '"' :: rest)) =
          csvScan .inQuoted (acc ++ [c]) rec (doubleQuotes t ++ '"' :: rest) := by
        simp [csvScan, hc]
      rw [hstep, ih]
      simp

/-- Scanning a run of non-special characters inside an unquoted field
accumulates them verbatim. -/
theorem csvScan_plain (f : List Char) (acc : List Char) (rec : List (List Char))
    (rest : List Char) (hf : ∀ c ∈ f, isCsvSpecial c = false) :
    csvScan .inField acc rec (f ++ rest) = csvScan .inField (acc ++ f) rec rest := by
  induction f generalizing acc with
  | nil => simp
  | cons c t ih =>
    have hc := hf c (List.mem_cons_self c t)
    simp only [isCsvSpecial, decide_eq_false_iff_not] at hc
    push_neg at hc
    have hstep : csvScan .inField acc rec (c :: (t ++ rest)) =
        csvScan .inField (acc ++ [c]) rec (t ++ rest) := by
      simp [csvScan, hc.1, hc.2.1, hc.2.2.1, hc.2.2.2]
    rw [List.cons_append, hstep, ih _ fun x hx => hf x (List.mem_cons_of_mem c hx)]
    simp

/-- Reading one encoded field followed by a comma consumes the field. -/
theorem csvScan_encodeField_comma (f : List Char) (rec : List (List Char))
    (rest : List Char) :
    csvScan .startField [] rec (encodeField f ++ ',' :: rest) =
      csvScan .startField [] (rec ++ [f]) rest := by
  by_cases hq : f.any isCsvSpecial
  · rw [encodeField, if_pos hq, List.cons_append, csvScan_sf_quote]
    have hassoc : (doubleQuotes f ++ ['"']) ++ ',' :: rest =
        doubleQuotes f ++ '"' :: (',' :: rest) := by simp
    rw [hassoc, csvScan_doubleQuotes, List.nil_append, csvScan_qq_comma]
  · rw [encodeField, if_neg hq]
    have hf : ∀ c ∈ f, isCsvSpecial c = false := by
      intro c hc
      have := List.any_eq_false.mp (Bool.of_not_eq_true hq) c hc
      exact Bool.not_eq_true _ ▸ (by simpa using this)
    cases f with
    | nil => rw [List.nil_append, csvScan_sf_comma]
    | cons c t =>
      have hc := hf c (List.mem_cons_self c t)
      rw [List.cons_append, csvScan_sf_other c rec _ hc,
        csvScan_plain t [c] rec _ fun x hx => hf x (List.mem_cons_of_mem c hx),
        List.singleton_append, csvScan_if_comma]

/-- Reading one encoded field followed by CR LF consumes the field and
terminates the record. -/
theorem csvScan_encodeField_crlf (f : List Char) (rec : List (List Char))
    (rest : List Char) :
    csvScan .startField [] rec (encodeField f ++ '\r' :: '\n' :: rest) =
      (rec ++ [f]) :: csvScan .startRecord [] [] rest := by
  by_cases hq : f.any isCsvSpecial
  · rw [encodeField, if_pos hq, List.cons_append, csvScan_sf_quote]
    have hassoc : (doubleQuotes f ++ ['"']) ++ '\r' :: '\n' :: rest =
        doubleQuotes f ++ '"' :: ('\r' :: '\n' :: rest) := by simp
    rw [hassoc, csvScan_doubleQuotes, List.nil_append, csvScan_qq_cr, csvScan_ac_lf]
  · rw [encodeField, if_neg hq]
    have hf : ∀ c ∈ f, isCsvSpecial c = false := by
      intro c hc
      have := List.any_eq_false.mp (Bool.of_not_eq_true hq) c hc
      exact Bool.not_eq_true _ ▸ (by simpa using this)
    cases f with
    | nil => rw [List.nil_append, csvScan_sf_cr, csvScan_ac_lf]
    | cons c t =>
      have hc := hf c (List.mem_cons_self c t)
      rw [List.cons_append, csvScan_sf_other c rec _ hc,
        csvScan_plain t [c] rec _ fun x hx => hf x (List.mem_cons_of_mem c hx),
        List.singleton_append, csvScan_if_cr, csvScan_ac_lf]

/-- Variant of `csvScan_encodeField_comma` for the first field of a
record, which is read from the `startRecord` state. -/
theorem csvScan_encodeField_comma_sr (f : List Char) (rest : List Char) :
    csvScan .startRecord [] [] (encodeField f ++ ',' :: rest) =
      csvScan .startField [] [f] rest := by
  by_cases hq : f.any isCsvSpecial
  · rw [encodeField, if_pos hq, List.cons_append, csvScan_sr_quote]
    have hassoc : (doubleQuotes f ++ ['"']) ++ ',' :: rest =
        doubleQuotes f ++ '"' :: (',' :: rest) := by simp
    rw [hassoc, csvScan_doubleQuotes, List.nil_append, csvScan_qq_comma,
      List.nil_append]
  · rw [encodeField, if_neg hq]
    have hf : ∀ c ∈ f, isCsvSpecial c = false := by
      intro c hc
      have := List.any_eq_false.mp (Bool.of_not_eq_true hq) c hc
      exact Bool.not_eq_true _ ▸ (by simpa using this)
    cases f with
    | nil => rw [List.nil_append, csvScan_sr_comma]
    | cons c t =>
      have hc := hf c (List.mem_cons_self c t)
      rw [List.cons_append, csvScan_sr_other c _ hc,
        csvScan_plain t [c] [] _ fun x hx => hf x (List.mem_cons_of_mem c hx),
        List.singleton_append, csvScan_if_comma, List.nil_append]

/-- Reading an encoded non-empty record terminated by CR LF, starting
before a field, yields its fields. -/
theorem csvScan_encodeRecord (fs : List (List Char)) (rec : List (List Char))
    (rest : List Char) (hfs : fs ≠ []) :
    csvScan .startField [] rec (encodeRecord fs ++ '\r' :: '\n' :: rest) =
      (rec ++ fs) :: csvScan .startRecord [] [] rest := by
  induction fs generalizing rec with
  | nil => exact absurd rfl hfs
  | cons f fs' ih =>
    cases fs' with
    | nil => simpa using csvScan_encodeField_crlf f rec rest
    | cons f2 fs'' =>
      have henc : encodeRecord (f :: f2 :: fs'') =
          encodeField f ++ ',' :: encodeRecord (f2 :: fs'') := rfl
      rw [henc]
      have hassoc : (encodeField f ++ ',' :: encodeRecord (f2 :: fs'')) ++
          '\r' :: '\n' :: rest =
          encodeField f ++ ',' :: (encodeRecord (f2 :: fs'') ++ '\r' :: '\n' :: rest) := by
        simp
      rw [hassoc, csvScan_encodeField_comma, ih _ (List.cons_ne_nil f2 fs'')]
      simp

/-- Reading one whole CSV line of a record with at least two fields from
the start-of-record state yields exactly that record. -/
theorem csvScan_csvLine (fs : List (List Char)) (rest : List Char)
    (h2 : 2 ≤ fs.length) :
    csvScan .startRecord [] [] (csvLine fs ++ rest) =
      fs :: csvScan .startRecord [] [] rest := by
  match fs, h2 with
  | f :: f2 :: fs'', _ =>
    have henc : csvLine (f :: f2 :: fs'') ++ rest =
        encodeField f ++ ',' :: (encodeRecord (f2 :: fs'') ++ '\r' :: '\n' :: rest) := by
      rw [csvLine]
      have : encodeRecord (f :: f2 :: fs'') =
          encodeField f ++ ',' :: encodeRecord (f2 :: fs'') := rfl
      rw [this]
      simp
    rw [henc, csvScan_encodeField_comma_sr,
      csvScan_encodeRecord (f2 :: fs'') [f] rest (List.cons_ne_nil f2 fs'')]
    simp

/-- Decoding a concatenation of encoded lines (each record having at least
two fields) recovers the record list. -/
theorem csvScan_lines (rs : List (List (List Char)))
    (h : ∀ r ∈ rs, 2 ≤ r.length) :
    csvScan .startRecord [] [] ((rs.map csvLine).flatten) = rs := by
  induction rs with
  | nil => rfl
  | cons r rs' ih =>
    rw [List.map_cons, List.flatten_cons,
      csvScan_csvLine r _ (h r (List.mem_cons_self r rs')),
      ih fun x hx => h x (List.mem_cons_of_mem r hx)]

/-- The records stored by `overwrite_appointments` are the header followed
by one record per row. -/
theorem csvRecords_overwrite (rows : List Row) :
    csvRecords (overwrite_appointments rows) =
      headerFields :: rows.map rowRecord := by
  have hform : overwrite_appointments rows =
      (((headerFields :: rows.map rowRecord).map csvLine).flatten) := by
    rw [overwrite_appointments]
    simp only [List.map_cons, List.flatten_cons, List.map_map]
    rfl
  rw [csvRecords, hform]
  refine csvScan_lines _ ?_
  intro r hr
  rcases List.mem_cons.mp hr with rfl | hr'
  · exact by norm_num [headerFields]
  · obtain ⟨row, _, rfl⟩ := List.mem_map.mp hr'
    exact by norm_num [rowRecord]

/-- Decoding the cells of an encoded row gives the row back (the
positional reconstruction is the inverse of `rowRecord`). -/
theorem map_recToRow_rowRecord (rows : List Row) :
    (rows.map rowRecord).map recToRow = rows := by
  induction rows with
  | nil => rfl
  | cons r rs ih =>
    simp only [List.map_cons]
    rw [ih]
    have hid : recToRow (rowRecord r) = r := rfl
    rw [hid]

/-! ## Claim C8 -/

/-- C8: CSV persistence round-trip.  Reading back a file written by
`overwrite_appointments` returns exactly the written rows in order; on the
empty list the file is header-only and reads back as the empty list; and
reading a non-existent file also gives the empty list. -/
theorem csv_roundtrip_spec :
    (∀ rows : List Row,
      read_appointments (some (overwrite_appointments rows)) = rows) ∧
    overwrite_appointments [] = csvLine headerFields ∧
    read_appointments (some (overwrite_appointments [])) = [] ∧
    read_appointments none = [] := by
  have hmain : ∀ rows : List Row,
      read_appointments (some (overwrite_appointments rows)) = rows := by
    intro rows
    rw [read_appointments, csvRecords_overwrite]
    have hfil : ((rows.map rowRecord).filter fun rec => rec ≠ []) =
        rows.map rowRecord := by
      refine List.filter_eq_self.mpr fun rec hrec => ?_
      obtain ⟨r, _, rfl⟩ := List.mem_map.mp hrec
      simp [rowRecord]
    show ((rows.map rowRecord).filter fun rec => rec ≠ []).map recToRow = rows
    rw [hfil]
    exact map_recToRow_rowRecord rows
  exact ⟨hmain, rfl, hmain [], rfl⟩

/-- Witness for C8 on a row whose fields exercise quoting: commas,
double quotes and an embedded newline survive the round-trip. -/
theorem csv_roundtrip_witness :
    read_appointments (some (overwrite_appointments
      [⟨"t1", "Ann, \"Bob\"", "a@b", "2025-01-02", "10:00", "Other",
        "line1\nline2"⟩])) =
      [⟨"t1", "Ann, \"Bob\"", "a@b", "2025-01-02", "10:00", "Other",
        "line1\nline2"⟩] :=
  csv_roundtrip_spec.1 _
